import Mathlib

/-!
# Verification of the nova quota engine (`nova/quota.py`)

Shallow embedding of the quota subsystem: the `DbQuotaDriver` limit checks,
quota-value arithmetic, settable-quota bands, the migration-gate cache, the
legacy per-cell scatter/gather counting, and the `QuotaEngine` resource
registry.  Database reads (per-project / per-user stored overrides, class and
configuration defaults, usage counts) are parameters of the embedded
functions; everything the source computes from them is embedded faithfully.

Python dictionaries keyed by resource name are embedded as association lists
`List (String × _)` preserving insertion order; raised exceptions become an
`Except QuotaError` result.
-/

namespace NovaQuota

/-- The error taxonomy raised by the quota code (`nova.exception` classes as
used in `nova/quota.py`).  `overQuota` carries the sorted list of violated
resources, the quotas dictionary and the headroom dictionary that the source
attaches to the exception (`usages` is always `{}` at these raise sites and is
omitted). -/
inductive QuotaError where
  /-- `exception.InvalidQuotaMethodUsage(method=..., res=...)` -/
  | invalidQuotaMethodUsage (method : String) (res : String)
  /-- `exception.InvalidQuotaValue(unders=...)` -/
  | invalidQuotaValue (unders : List String)
  /-- `exception.QuotaResourceUnknown(unknown=...)` -/
  | quotaResourceUnknown (unknown : List String)
  /-- `exception.OverQuota(overs=..., quotas=..., headroom=...)` -/
  | overQuota (overs : List String) (quotas : List (String × Int))
      (headroom : List (String × Int))
  /-- `exception.Invalid(message)` -/
  | invalid (message : String)
  deriving DecidableEq, Repr

/-- A resource descriptor (`BaseResource` / `AbsoluteResource` /
`CountableResource`).  `valid_method` is the class attribute (`'check'` for
`AbsoluteResource` and its subclass `CountableResource`); `countable` records
whether the object has a `count_as_dict` attribute (i.e. is a
`CountableResource`); `flag` is the configuration option naming the default. -/
structure Resource where
  name : String
  valid_method : String
  flag : Option String
  countable : Bool
  deriving DecidableEq, Repr

/-- Insert a string into a (sorted) list, keeping it sorted. -/
def insertSorted (s : String) : List String → List String
  | [] => [s]
  | t :: ts => if s ≤ t then s :: t :: ts else t :: insertSorted s ts

/-- Python's `sorted()` on a list of strings. -/
def sortStrings (l : List String) : List String :=
  l.foldr insertSorted []

/-- `DbQuotaDriver.UNLIMITED_VALUE` -/
def UNLIMITED_VALUE : Int := -1

/-- `DbQuotaDriver._is_unlimited_value` -/
def _is_unlimited_value (v : Int) : Bool :=
  v ≤ UNLIMITED_VALUE

/-- `DbQuotaDriver._sum_quota_values` -/
def _sum_quota_values (v1 v2 : Int) : Int :=
  if _is_unlimited_value v1 || _is_unlimited_value v2 then UNLIMITED_VALUE
  else v1 + v2

/-- `DbQuotaDriver._sub_quota_values` -/
def _sub_quota_values (v1 v2 : Int) : Int :=
  if _is_unlimited_value v1 || _is_unlimited_value v2 then UNLIMITED_VALUE
  else v1 - v2

/-- The per-project resolved limit for a resource, as computed by
`get_project_quotas` → `_process_quotas`:
`limit = quotas.get(name, class_quotas.get(name, default_quotas[name]))`,
where `quotas` is the stored per-project override dictionary.  The
class-quota / configuration-default resolution tail is abstracted as the
function `classDefault` (it is read from the database and configuration). -/
def resolveProjectLimit (projOv : String → Option Int) (classDefault : String → Int)
    (k : String) : Int :=
  (projOv k).getD (classDefault k)

/-- The per-user resolved limit for a resource, as computed by
`get_user_quotas`: the per-user stored override if present, else the
per-project stored override (`user_quotas[key] = proj_quotas[key]` for keys
not already set), else the class/default limit via `_process_quotas`. -/
def resolveUserLimit (userOv projOv : String → Option Int)
    (classDefault : String → Int) (k : String) : Int :=
  ((userOv k).orElse fun _ => projOv k).getD (classDefault k)

/-- `_valid_method_call_check_resource(name, method, resources)`: raises
`InvalidQuotaMethodUsage` when `name` is not a registered resource or when the
resource's `valid_method` differs from `method`.  Returns the error it would
raise, if any. -/
def _valid_method_call_check_resource (name method : String)
    (resources : List Resource) : Option QuotaError :=
  match resources.find? (fun r => r.name == name) with
  | none => some (.invalidQuotaMethodUsage method name)
  | some r =>
      if r.valid_method ≠ method then some (.invalidQuotaMethodUsage method name)
      else none

/-- `_valid_method_call_check_resources(resource_values, method, resources)`:
checks each name of the values dictionary in iteration order and raises at the
first offending one.  Returns the error it would raise, if any. -/
def _valid_method_call_check_resources (resource_values : List (String × Int))
    (method : String) (resources : List Resource) : Option QuotaError :=
  resource_values.findSome? fun kv =>
    _valid_method_call_check_resource kv.1 method resources

/-- `DbQuotaDriver._get_quotas(context, resources, keys, ...)`: filters the
registry down to the desired keys; if some key is not accounted for, raises
`QuotaResourceUnknown` with the sorted set of unknown names; otherwise returns
the `{k: v['limit']}` dictionary (in registry order, as the source builds it
by iterating `sub_resources`).  The resolution of each limit from the
database/configuration is abstracted as `limits`. -/
def _get_quotas (resources : List Resource) (keys : List String)
    (limits : String → Int) : Except QuotaError (List (String × Int)) :=
  if keys.length ≠ ((resources.map (·.name)).filter fun n => keys.contains n).length then
    .error (.quotaResourceUnknown
      (sortStrings ((keys.filter fun k => !(resources.map (·.name)).contains k).dedup)))
  else
    .ok (((resources.map (·.name)).filter fun n => keys.contains n).map
      fun k => (k, limits k))

/-- Lookup in an association list built by `_get_quotas`, defaulting to `0`
(the default is never reached at the source's use sites, where every key
looked up is present). -/
def dictGet (d : List (String × Int)) (k : String) : Int :=
  (d.lookup k).getD 0

/-- `DbQuotaDriver.limit_check(context, resources, values, ...)`.  Inputs from
the database are abstracted: `projOv` is `objects.Quotas.get_all_by_project`
(the stored per-project overrides, also bound to `project_quotas` in the
source), `userOv` is `objects.Quotas.get_all_by_project_and_user`, and
`classDefault` the class/default limit resolution.  Returns `()` or the
exception raised. -/
def limit_check (resources : List Resource) (projOv userOv : String → Option Int)
    (classDefault : String → Int) (values : List (String × Int)) :
    Except QuotaError Unit :=
  match _valid_method_call_check_resources values "check" resources with
  | some e => .error e
  | none =>
  let unders := (values.filter fun kv => kv.2 < 0).map (·.1)
  if !unders.isEmpty then .error (.invalidQuotaValue (sortStrings unders))
  else
  let keys := values.map (·.1)
  match _get_quotas resources keys (resolveProjectLimit projOv classDefault) with
  | .error e => .error e
  | .ok quotasD =>
  match _get_quotas resources keys (resolveUserLimit userOv projOv classDefault) with
  | .error e => .error e
  | .ok userQuotasD =>
  let overs := (values.filter fun kv =>
    (0 ≤ dictGet quotasD kv.1 && dictGet quotasD kv.1 < kv.2) ||
    (0 ≤ dictGet userQuotasD kv.1 && dictGet userQuotasD kv.1 < kv.2)).map (·.1)
  if !overs.isEmpty then
    let headroom := overs.map fun k =>
      (k, match projOv k with
          | some p => min (dictGet quotasD k) p
          | none => dictGet quotasD k)
    .error (.overQuota (sortStrings overs) quotasD headroom)
  else
    .ok ()

deriving instance DecidableEq for Except

/-- The per-scope loop of `limit_check_project_and_user` over the keys the
two value-sets have in common (`for key in user_values.keys()` after the
symmetric-difference keys were popped): appends a key to the overs when the
project-scope limit is concrete and below the project value, else — `elif` —
when the user-scope limit is concrete and below the user value, recording in
the flag (`over_user_quota`) whether a user-scope check triggered. -/
def scopeCheckLoop (quotasD userQuotasD pv uv : List (String × Int)) :
    List String × Bool :=
  (uv.map (·.1)).foldl (fun (acc : List String × Bool) k =>
    if 0 ≤ dictGet quotasD k ∧ dictGet quotasD k < dictGet pv k then
      (acc.1 ++ [k], acc.2)
    else if 0 ≤ dictGet userQuotasD k ∧ dictGet userQuotasD k < dictGet uv k then
      (acc.1 ++ [k], true)
    else acc) ([], false)

/-- The merged-phase check of `limit_check_project_and_user` (`if
merged_values:` in the source): resources requested in only one value-set are
checked against `merged_quotas`, the pointwise minimum of the project-scope
and user-scope limit dictionaries; on violation raises `OverQuota` with the
sorted overs, the merged quotas and per-key headroom equal to the merged
limit. -/
def mergedPhaseCheck (quotasD userQuotasD merged_values : List (String × Int)) :
    Except QuotaError Unit :=
  if !merged_values.isEmpty then
    let merged_quotas := quotasD.map fun kv =>
      (kv.1, min kv.2 (dictGet userQuotasD kv.1))
    let overs := (merged_values.filter fun kv =>
      0 ≤ dictGet merged_quotas kv.1 && dictGet merged_quotas kv.1 < kv.2).map
        (·.1)
    if !overs.isEmpty then
      .error (.overQuota (sortStrings overs) merged_quotas
        (overs.map fun k => (k, dictGet merged_quotas k)))
    else .ok ()
  else .ok ()

/-- The per-scope check of `limit_check_project_and_user` (the `for key in
user_values.keys():` loop and the raise after it): the keys in both value
sets are checked per scope via `scopeCheckLoop`; on violation raises
`OverQuota` from the user-scope limits when a user-scope check triggered
(`over_user_quota`), else from the project-scope limits. -/
def scopePhaseCheck (quotasD userQuotasD pv uv : List (String × Int)) :
    Except QuotaError Unit :=
  let step := scopeCheckLoop quotasD userQuotasD pv uv
  if !step.1.isEmpty then
    let quotas_exceeded := if step.2 then userQuotasD else quotasD
    .error (.overQuota (sortStrings step.1) quotas_exceeded
      (step.1.map fun k => (k, dictGet quotas_exceeded k)))
  else .ok ()

/-- The outcome of `DbQuotaDriver.limit_check_project_and_user`: the result
(`()` or the exception raised) together with the final contents of the two
caller-supplied dictionaries, which the source mutates in place
(`project_values.pop(key, None)` / `user_values.pop(key, None)`). -/
structure LimitCheckPUOutcome where
  result : Except QuotaError Unit
  project_values : List (String × Int)
  user_values : List (String × Int)
  deriving DecidableEq, Repr

/-- `DbQuotaDriver.limit_check_project_and_user(context, resources,
project_values, user_values, ...)`.  Database inputs abstracted as in
`limit_check`.  The symmetric-difference keys are merged into one value-set
checked against the pointwise minimum of the project-scope and user-scope
limits; the remaining (intersection) keys are checked per scope.  The set
iteration order of `keys_to_merge` is fixed here as project-dictionary order
followed by user-dictionary order. -/
def limit_check_project_and_user (resources : List Resource)
    (projOv userOv : String → Option Int) (classDefault : String → Int)
    (project_values user_values : List (String × Int)) : LimitCheckPUOutcome :=
  match _valid_method_call_check_resources project_values "check" resources with
  | some e => ⟨.error e, project_values, user_values⟩
  | none =>
  match _valid_method_call_check_resources user_values "check" resources with
  | some e => ⟨.error e, project_values, user_values⟩
  | none =>
  if project_values.isEmpty && user_values.isEmpty then
    ⟨.error (.invalid
      "Must specify at least one of project_values or user_values for the limit check."),
     project_values, user_values⟩
  else
  let pUnders := (project_values.filter fun kv => kv.2 < 0).map (·.1)
  if !pUnders.isEmpty then
    ⟨.error (.invalidQuotaValue (sortStrings pUnders)), project_values, user_values⟩
  else
  let uUnders := (user_values.filter fun kv => kv.2 < 0).map (·.1)
  if !uUnders.isEmpty then
    ⟨.error (.invalidQuotaValue (sortStrings uUnders)), project_values, user_values⟩
  else
  let pvKeys := project_values.map (·.1)
  let uvKeys := user_values.map (·.1)
  let all_keys := (pvKeys ++ uvKeys).dedup
  let keys_to_merge := pvKeys.filter (fun k => !uvKeys.contains k) ++
                       uvKeys.filter (fun k => !pvKeys.contains k)
  let merged_values := keys_to_merge.map fun k =>
    let a := (project_values.lookup k).getD 0
    (k, if a = 0 then (user_values.lookup k).getD 0 else a)
  let pv := project_values.filter fun kv => !keys_to_merge.contains kv.1
  let uv := user_values.filter fun kv => !keys_to_merge.contains kv.1
  match _get_quotas resources all_keys (resolveProjectLimit projOv classDefault) with
  | .error e => ⟨.error e, pv, uv⟩
  | .ok quotasD =>
  match _get_quotas resources all_keys (resolveUserLimit userOv projOv classDefault) with
  | .error e => ⟨.error e, pv, uv⟩
  | .ok userQuotasD =>
  match mergedPhaseCheck quotasD userQuotasD merged_values with
  | .error e => ⟨.error e, pv, uv⟩
  | .ok () =>
  match scopePhaseCheck quotasD userQuotasD pv uv with
  | .error e => ⟨.error e, pv, uv⟩
  | .ok () => ⟨.ok (), pv, uv⟩

/-- The resource registry built at module load (`QUOTAS = QuotaEngine(...)`),
as a list of descriptors in registration order.  All entries are
`AbsoluteResource` or `CountableResource`, hence `valid_method = "check"`. -/
def novaQuotaResources : List Resource :=
  [⟨"instances", "check", some "instances", true⟩,
   ⟨"cores", "check", some "cores", true⟩,
   ⟨"ram", "check", some "ram", true⟩,
   ⟨"metadata_items", "check", some "metadata_items", false⟩,
   ⟨"injected_files", "check", some "injected_files", false⟩,
   ⟨"injected_file_content_bytes", "check", some "injected_file_content_bytes",
    false⟩,
   ⟨"injected_file_path_bytes", "check", some "injected_file_path_length",
    false⟩,
   ⟨"key_pairs", "check", some "key_pairs", true⟩,
   ⟨"server_groups", "check", some "server_groups", true⟩,
   ⟨"server_group_members", "check", some "server_group_members", true⟩,
   ⟨"fixed_ips", "check", none, false⟩,
   ⟨"floating_ips", "check", none, false⟩,
   ⟨"security_groups", "check", none, false⟩,
   ⟨"security_group_rules", "check", none, false⟩]

/-- The `remains` value computed per resource by `_process_quotas(...,
remains=True)`: initialized to the resolved limit, then each per-user stored
quota's `hard_limit` in the project is subtracted with plain integer
subtraction (`modified_quotas[quota.resource]['remains'] -= quota.hard_limit`).
`userHardLimits` are the `hard_limit`s of all per-user quotas stored for the
project for this resource (`objects.Quotas.get_all(context, project_id)`). -/
def quotaRemains (limit : Int) (userHardLimits : List Int) : Int :=
  userHardLimits.foldl (fun r h => r - h) limit

/-- A `{'minimum': ..., 'maximum': ...}` entry of `get_settable_quotas`. -/
structure SettableQuota where
  minimum : Int
  maximum : Int
  deriving DecidableEq, Repr

/-- `DbQuotaDriver.get_settable_quotas` per resource, user-scoped branch
(`user_id` given): `maximum = _sum_quota_values(project_quotas[key]['remains'],
setted_quotas.get(key, 0))`, `minimum = user_quotas[key]['in_use']`.
`limit` is the resolved project limit, `userHardLimits` the stored per-user
overrides in the project (the target user's included, when it exists),
`targetSetted` the target user's stored override and `userInUse` the user's
counted usage. -/
def get_settable_quotas_user (limit : Int) (userHardLimits : List Int)
    (targetSetted : Option Int) (userInUse : Int) : SettableQuota :=
  { minimum := userInUse,
    maximum := _sum_quota_values (quotaRemains limit userHardLimits)
      (targetSetted.getD 0) }

/-- `DbQuotaDriver.get_settable_quotas` per resource, project-scoped branch
(no `user_id`): `minimum = max(int(_sub_quota_values(limit, remains)),
int(in_use))`, `maximum = -1`. -/
def get_settable_quotas_project (limit : Int) (userHardLimits : List Int)
    (projInUse : Int) : SettableQuota :=
  { minimum := max (_sub_quota_values limit (quotaRemains limit userHardLimits))
      projInUse,
    maximum := -1 }

/-- Modelled from the spec: the claimed `remains` of §4.3 — "given a project
limit L and the sum of existing per-user overrides R already granted,
`remains = L − R` (or Unlimited if either is Unlimited)" — i.e. the per-user
overrides are summed and subtracted with Unlimited-propagating arithmetic.
The source (`_process_quotas`) instead subtracts with plain integer
subtraction; this definition exists to compare the two. -/
def specRemains (limit : Int) (userHardLimits : List Int) : Int :=
  _sub_quota_values limit (userHardLimits.foldl _sum_quota_values 0)

/-- Modelled from the spec: the claimed user-scope `maximum = remains + U`
(Unlimited-propagating) built on the Unlimited-propagating `specRemains`. -/
def specSettableMaximumUser (limit : Int) (userHardLimits : List Int)
    (targetSetted : Option Int) : Int :=
  _sum_quota_values (specRemains limit userHardLimits) (targetSetted.getD 0)

/-- The process-wide migration-gate cache:
`UID_QFD_POPULATED_CACHE_ALL` and `UID_QFD_POPULATED_CACHE_BY_PROJECT`. -/
structure QfdCache where
  all : Bool
  byProject : List String
  deriving DecidableEq, Repr

/-- One call of `is_qfd_populated(context)` as a state transition.  `db` is
the value the underlying existence query
(`_user_id_queued_for_delete_populated`) would return now.  Returns the
boolean result, whether the existence query was run, and the new cache
state. -/
def is_qfd_populated (db : Bool) (s : QfdCache) : Bool × Bool × QfdCache :=
  if !s.all then (db, true, { s with all := db })
  else (s.all, false, s)

/-- The migration-gate portion of `_instances_cores_ram_count` (taken with
`CONF.quota.count_usage_from_placement` enabled) as a state transition: for
`project_id`, decides whether the placement path may be used (`uid_qfd_populated`),
running the per-project existence query only when neither cache covers the
project and adding the project to the per-project cache when the query says
populated.  Returns (`uid_qfd_populated`, whether the query was run, new
state). -/
def instances_cores_ram_count_gate (db : Bool) (project_id : String)
    (s : QfdCache) : Bool × Bool × QfdCache :=
  if !s.all && !s.byProject.contains project_id then
    let uid_qfd_populated := db
    (uid_qfd_populated, true,
     if uid_qfd_populated then { s with byProject := project_id :: s.byProject }
     else s)
  else
    (true, false, s)

/-- The per-scope instance/cores/ram counts returned by one cell
(`objects.InstanceList.get_counts`). -/
structure ResCounts where
  instances : Nat
  cores : Nat
  ram : Nat
  deriving DecidableEq, Repr

/-- Pointwise sum of counts (the `+=` accumulation loop). -/
def ResCounts.add (a b : ResCounts) : ResCounts :=
  ⟨a.instances + b.instances, a.cores + b.cores, a.ram + b.ram⟩

/-- One entry of the per-cell result map returned by
`nova_context.scatter_gather_cells`: either a failure sentinel
(`did_not_respond_sentinel` / `raised_exception_sentinel`, recognized by
`nova_context.is_cell_failure_sentinel`) or the counts from that cell, with
the user-scoped part present only when `user_id` was passed. -/
inductive CellResult where
  | failed
  | counts (project : ResCounts) (user : ResCounts)
  deriving DecidableEq, Repr

/-- `nova_context.is_cell_failure_sentinel(result)`. -/
def is_cell_failure_sentinel : CellResult → Bool
  | .failed => true
  | .counts _ _ => false

/-- The aggregate returned by `_instances_cores_ram_count_legacy`:
project-scoped totals, plus user-scoped totals when `user_id` was given. -/
structure TotalCounts where
  project : ResCounts
  user : Option ResCounts
  deriving DecidableEq, Repr

/-- The body of the accumulation loop of `_instances_cores_ram_count_legacy`:
a failure-sentinel result is skipped, otherwise the cell's project counts (and
user counts, when `user_id` was given) are added to the running totals. -/
def legacyAddCell (hasUser : Bool) (tot : TotalCounts) (r : CellResult) :
    TotalCounts :=
  if is_cell_failure_sentinel r then tot
  else match r with
    | .failed => tot
    | .counts p u =>
        ⟨tot.project.add p, if hasUser then tot.user.map (·.add u) else tot.user⟩

/-- `_instances_cores_ram_count_legacy(context, project_id, user_id)`:
initializes zero totals (a `user` entry only if `user_id`), then adds each
cell's counts, skipping any result that is a failure sentinel.  `hasUser`
models `user_id` being passed; `results` the values of the per-cell result
map. -/
def _instances_cores_ram_count_legacy (hasUser : Bool)
    (results : List CellResult) : TotalCounts :=
  let init : TotalCounts := ⟨⟨0, 0, 0⟩, if hasUser then some ⟨0, 0, 0⟩ else none⟩
  results.foldl (legacyAddCell hasUser) init

/-- Insertion into a Python dictionary: an existing key's value is replaced in
place, a new key is appended. -/
def dictInsert (d : List (String × Resource)) (k : String) (v : Resource) :
    List (String × Resource) :=
  if d.any (·.1 == k) then
    d.map fun kv => if kv.1 = k then (k, v) else kv
  else d ++ [(k, v)]

/-- `QuotaEngine.__init__`: builds `self._resources` with the dict
comprehension `{resource.name: resource for resource in resources}` — a plain
Python dict construction with no duplicate-name validation. -/
def quotaEngineInitResources (resources : List Resource) :
    List (String × Resource) :=
  resources.foldl (fun d r => dictInsert d r.name r) []

/-- `QuotaEngine.count_as_dict` resource validation: raises
`QuotaResourceUnknown(unknown=[resource])` when the name is not registered or
the registered resource has no `count_as_dict` attribute (is not a
`CountableResource`); otherwise the counting function is invoked (embedded as
returning the descriptor). -/
def count_as_dict_lookup (registry : List (String × Resource)) (name : String) :
    Except QuotaError Resource :=
  match registry.lookup name with
  | none => .error (.quotaResourceUnknown [name])
  | some r =>
      if !r.countable then .error (.quotaResourceUnknown [name])
      else .ok r

/-- A resource name that is registered with the required `valid_method`. -/
def checkableIn (resources : List Resource) (k : String) : Prop :=
  ∃ r ∈ resources, r.name = k ∧ r.valid_method = "check"

instance (resources : List Resource) (k : String) :
    Decidable (checkableIn resources k) := by
  unfold checkableIn; infer_instance

/-- The symmetric difference of the key sets of the two value dictionaries of
`limit_check_project_and_user` (`set(project_values).symmetric_difference
(user_values)`), in project-dictionary order followed by user-dictionary
order. -/
def mergedKeys (pv uv : List (String × Int)) : List String :=
  (pv.map (·.1)).filter (fun k => !(uv.map (·.1)).contains k) ++
  (uv.map (·.1)).filter (fun k => !(pv.map (·.1)).contains k)

/-- The merged proposed value for a symmetric-difference key:
`project_values.get(key, 0) or user_values.get(key, 0)` (Python `or`: the
user-side value is used when the project-side value is absent or `0`). -/
def mergedValue (pv uv : List (String × Int)) (k : String) : Int :=
  if (pv.lookup k).getD 0 = 0 then (uv.lookup k).getD 0 else (pv.lookup k).getD 0

/-- The tighter of the resolved project-scope and user-scope limits, the
limit a symmetric-difference key is checked against. -/
def minLimit (projOv userOv : String → Option Int) (cd : String → Int)
    (k : String) : Int :=
  min (resolveProjectLimit projOv cd k) (resolveUserLimit userOv projOv cd k)

/-- The keys `limit_check_project_and_user` flags in its merged
(symmetric-difference) phase: those whose tighter limit is concrete and
strictly below the merged proposed value. -/
def projectUserMergedOvers (projOv userOv : String → Option Int)
    (cd : String → Int) (pv uv : List (String × Int)) : List String :=
  (mergedKeys pv uv).filter fun k =>
    0 ≤ minLimit projOv userOv cd k ∧
    minLimit projOv userOv cd k < mergedValue pv uv k

/-- The keys `limit_check_project_and_user` flags in its per-scope phase (the
keys present in both dictionaries): those violating the project-scope limit
with the project value, or the user-scope limit with the user value. -/
def projectUserScopeOvers (projOv userOv : String → Option Int)
    (cd : String → Int) (pv uv : List (String × Int)) : List String :=
  ((uv.map (·.1)).filter fun k => (pv.map (·.1)).contains k).filter fun k =>
    (0 ≤ resolveProjectLimit projOv cd k ∧
     resolveProjectLimit projOv cd k < (pv.lookup k).getD 0) ∨
    (0 ≤ resolveUserLimit userOv projOv cd k ∧
     resolveUserLimit userOv projOv cd k < (uv.lookup k).getD 0)

/-! ## Helper lemmas -/

theorem mem_insertSorted {a s : String} {l : List String} :
    a ∈ insertSorted s l ↔ a = s ∨ a ∈ l := by
  induction l with
  | nil => simp [insertSorted]
  | cons t ts ih =>
      simp only [insertSorted]
      split
      · simp
      · simp only [List.mem_cons, ih]
        tauto

theorem mem_sortStrings {a : String} {l : List String} :
    a ∈ sortStrings l ↔ a ∈ l := by
  induction l with
  | nil => simp [sortStrings]
  | cons t ts ih =>
      simp only [sortStrings, List.foldr] at ih ⊢
      rw [mem_insertSorted, ih, List.mem_cons]

/-- Looking up a key in the self-keyed association list `l.map (k, f k)`
yields `f k` whenever the key occurs in `l`. -/
theorem lookup_map_self {f : String → Int} {l : List String} {k : String}
    (h : k ∈ l) : (l.map fun a => (a, f a)).lookup k = some (f k) := by
  induction l with
  | nil => cases h
  | cons t ts ih =>
      rcases List.mem_cons.mp h with rfl | hmem
      · simp [List.lookup]
      · by_cases hk : k = t
        · subst hk; simp [List.lookup]
        · simpa [List.lookup, beq_false_of_ne hk] using ih hmem

/-- `_valid_method_call_check_resource` can only produce an
`InvalidQuotaMethodUsage` error. -/
theorem valid_check_resource_err {n m : String} {rs : List Resource}
    {e : QuotaError} (h : _valid_method_call_check_resource n m rs = some e) :
    e = .invalidQuotaMethodUsage m n := by
  unfold _valid_method_call_check_resource at h
  split at h
  · exact (Option.some.inj h).symm
  · split at h
    · exact (Option.some.inj h).symm
    · cases h

/-- `_valid_method_call_check_resources` can only produce an
`InvalidQuotaMethodUsage` error. -/
theorem valid_check_resources_err {vals : List (String × Int)} {m : String}
    {rs : List Resource} {e : QuotaError}
    (h : _valid_method_call_check_resources vals m rs = some e) :
    ∃ a b, e = .invalidQuotaMethodUsage a b := by
  induction vals with
  | nil => simp [_valid_method_call_check_resources] at h
  | cons kv tl ih =>
      rw [_valid_method_call_check_resources, List.findSome?_cons] at h
      revert h
      cases hh : _valid_method_call_check_resource kv.1 m rs with
      | none => exact fun h => ih h
      | some e' =>
          intro h
          exact ⟨m, kv.1, (Option.some.inj h) ▸ valid_check_resource_err hh⟩

theorem valid_check_resource_none {rs : List Resource} {k : String}
    (hnames : (rs.map (·.name)).Nodup) (h : checkableIn rs k) :
    _valid_method_call_check_resource k "check" rs = none := by
  obtain ⟨r, hr, hname, hvm⟩ := h
  have hfind : (rs.find? (fun r => r.name == k)).isSome := by
    rw [List.find?_isSome]
    exact ⟨r, hr, by simp [hname]⟩
  obtain ⟨r', hr'⟩ := Option.isSome_iff_exists.mp hfind
  have hr'name : r'.name = k := by
    simpa using List.find?_some hr'
  have hr'mem : r' ∈ rs := List.mem_of_find?_eq_some hr'
  have : r' = r := List.inj_on_of_nodup_map hnames hr'mem hr (by rw [hr'name, hname])
  unfold _valid_method_call_check_resource
  rw [hr', this]
  simp [hvm]

theorem valid_check_resources_none {vals : List (String × Int)}
    {rs : List Resource} (hnames : (rs.map (·.name)).Nodup)
    (h : ∀ kv ∈ vals, checkableIn rs kv.1) :
    _valid_method_call_check_resources vals "check" rs = none := by
  rw [_valid_method_call_check_resources, List.findSome?_eq_none_iff]
  exact fun kv hkv => valid_check_resource_none hnames (h kv hkv)

/-- When the registry names are duplicate-free and every requested key is
registered, `_get_quotas` succeeds and returns the limits dictionary over the
registry names restricted to the request. -/
theorem _get_quotas_ok {rs : List Resource} {keys : List String}
    (f : String → Int) (hnames : (rs.map (·.name)).Nodup) (hkeys : keys.Nodup)
    (hsub : ∀ k ∈ keys, k ∈ rs.map (·.name)) :
    _get_quotas rs keys f =
      .ok (((rs.map (·.name)).filter fun n => keys.contains n).map
        fun k => (k, f k)) := by
  have hperm : (((rs.map (·.name)).filter fun n => keys.contains n)).Perm keys := by
    apply List.Subperm.antisymm
    · exact List.subperm_of_subset (hnames.filter _)
        (fun n hn => by
          have := List.of_mem_filter hn
          simpa using this)
    · exact List.subperm_of_subset hkeys
        (fun k hk => List.mem_filter.mpr ⟨hsub k hk, by simpa using hk⟩)
  have hlen := hperm.length_eq
  unfold _get_quotas
  rw [if_neg (by omega)]

/-- Every key of a successful `_get_quotas` request is bound to its resolved
limit in the returned dictionary. -/
theorem _get_quotas_lookup {rs : List Resource} {keys : List String}
    {f : String → Int} {d : List (String × Int)}
    (hnames : (rs.map (·.name)).Nodup)
    (h : _get_quotas rs keys f = .ok d) :
    ∀ k ∈ keys, d.lookup k = some (f k) := by
  intro k hk
  unfold _get_quotas at h
  split at h
  · cases h
  · next hlen =>
    have hd : d = ((rs.map (·.name)).filter fun n => keys.contains n).map
        (fun k => (k, f k)) := (Except.ok.inj h).symm
    have hperm : (((rs.map (·.name)).filter fun n => keys.contains n)).Perm keys := by
      apply List.Subperm.perm_of_length_le
      · exact List.subperm_of_subset (hnames.filter _)
          (fun n hn => by simpa using List.of_mem_filter hn)
      · omega
    rw [hd]
    exact lookup_map_self (hperm.mem_iff.mpr hk)

/-- Looking up a key in an association list whose keys are duplicate-free
returns the value it is paired with. -/
theorem lookup_of_mem_nodup {l : List (String × Int)} {k : String} {v : Int}
    (hn : (l.map (·.1)).Nodup) (hm : (k, v) ∈ l) : l.lookup k = some v := by
  induction l with
  | nil => cases hm
  | cons kv tl ih =>
      rcases List.mem_cons.mp hm with rfl | hmem
      · simp [List.lookup]
      · have hk : k ≠ kv.1 := by
          rintro rfl
          exact (List.nodup_cons.mp hn).1 (List.mem_map.mpr ⟨(kv.1, v), hmem, rfl⟩)
        simpa [List.lookup, beq_false_of_ne hk] using ih (List.nodup_cons.mp hn).2 hmem

/-- `_get_quotas` can only produce a `QuotaResourceUnknown` error. -/
theorem _get_quotas_err {rs : List Resource} {keys : List String}
    {f : String → Int} {e : QuotaError}
    (h : _get_quotas rs keys f = .error e) : ∃ u, e = .quotaResourceUnknown u := by
  unfold _get_quotas at h
  split at h
  · exact ⟨_, (Except.error.inj h).symm⟩
  · cases h

/-- Inversion for `limit_check`: an `OverQuota` outcome can arise only after
every validation passed, and determines the overs, quotas and headroom from
the two resolved-limit dictionaries. -/
theorem limit_check_overQuota_inv
    {resources : List Resource} {projOv userOv : String → Option Int}
    {classDefault : String → Int} {values : List (String × Int)}
    {overs : List String} {q hd : List (String × Int)}
    (hrun : limit_check resources projOv userOv classDefault values =
      .error (.overQuota overs q hd)) :
    ∃ quotasD userQuotasD,
      _get_quotas resources (values.map (·.1))
        (resolveProjectLimit projOv classDefault) = .ok quotasD ∧
      _get_quotas resources (values.map (·.1))
        (resolveUserLimit userOv projOv classDefault) = .ok userQuotasD ∧
      (∀ kv ∈ values, (0 : Int) ≤ kv.2) ∧
      overs = sortStrings ((values.filter fun kv =>
        (0 ≤ dictGet quotasD kv.1 && dictGet quotasD kv.1 < kv.2) ||
        (0 ≤ dictGet userQuotasD kv.1 && dictGet userQuotasD kv.1 < kv.2)).map
          (·.1)) ∧
      q = quotasD ∧
      hd = ((values.filter fun kv =>
        (0 ≤ dictGet quotasD kv.1 && dictGet quotasD kv.1 < kv.2) ||
        (0 ≤ dictGet userQuotasD kv.1 && dictGet userQuotasD kv.1 < kv.2)).map
          (·.1)).map fun k =>
        (k, match projOv k with
            | some p => min (dictGet quotasD k) p
            | none => dictGet quotasD k) := by
  simp only [limit_check] at hrun
  split at hrun
  · next e heq =>
      obtain ⟨a, b, rfl⟩ := valid_check_resources_err heq
      cases hrun
  · split at hrun
    · cases hrun
    · next hunders =>
      split at hrun
      · next e heq =>
          obtain ⟨u, rfl⟩ := _get_quotas_err heq
          cases hrun
      · next quotasD heqq =>
        split at hrun
        · next e heq =>
            obtain ⟨u, rfl⟩ := _get_quotas_err heq
            cases hrun
        · next userQuotasD hequ =>
          split at hrun
          · next hovers =>
            obtain ⟨ho, hq, hh⟩ := QuotaError.overQuota.inj (Except.error.inj hrun)
            have hnonneg : ∀ kv ∈ values, (0 : Int) ≤ kv.2 := by
              intro kv hkvmem
              have hie : ((values.filter fun kv =>
                  decide (kv.2 < 0)).map (·.1)).isEmpty = true := by
                revert hunders
                cases hie' : ((values.filter fun kv =>
                    decide (kv.2 < 0)).map (·.1)).isEmpty <;> simp
              have hfil := List.map_eq_nil_iff.mp (List.isEmpty_iff.mp hie)
              have := List.filter_eq_nil_iff.mp hfil kv hkvmem
              simpa using this
            exact ⟨quotasD, userQuotasD, heqq, hequ, hnonneg, ho.symm, hq.symm,
              hh.symm⟩
          · cases hrun

/-- C1.  In `DbQuotaDriver.limit_check`, a resource is flagged in the
`OverQuota` `overs` list only when its proposed value occurs in the request
and its project-scope or user-scope resolved limit is concrete (`≥ 0`) and
strictly below that (necessarily non-negative) value; consequently a resource
whose project-scope and user-scope limits are both Unlimited (negative) is
never flagged, whatever value is proposed for it. -/
theorem limit_check_unlimited_never_flagged
    (resources : List Resource) (projOv userOv : String → Option Int)
    (classDefault : String → Int) (values : List (String × Int))
    (overs : List String) (q hd : List (String × Int))
    (hnames : (resources.map (·.name)).Nodup)
    (hrun : limit_check resources projOv userOv classDefault values =
      .error (.overQuota overs q hd)) :
    (∀ k ∈ overs, ∃ v, (k, v) ∈ values ∧ 0 ≤ v ∧
      ((0 ≤ resolveProjectLimit projOv classDefault k ∧
        resolveProjectLimit projOv classDefault k < v) ∨
       (0 ≤ resolveUserLimit userOv projOv classDefault k ∧
        resolveUserLimit userOv projOv classDefault k < v))) ∧
    (∀ k, resolveProjectLimit projOv classDefault k < 0 →
      resolveUserLimit userOv projOv classDefault k < 0 → k ∉ overs) := by
  have main : ∀ k ∈ overs, ∃ v, (k, v) ∈ values ∧ 0 ≤ v ∧
      ((0 ≤ resolveProjectLimit projOv classDefault k ∧
        resolveProjectLimit projOv classDefault k < v) ∨
       (0 ≤ resolveUserLimit userOv projOv classDefault k ∧
        resolveUserLimit userOv projOv classDefault k < v)) := by
    intro k hk
    obtain ⟨quotasD, userQuotasD, heqq, hequ, hnn, ho, -, -⟩ :=
      limit_check_overQuota_inv hrun
    rw [ho, mem_sortStrings] at hk
    obtain ⟨kv, hkvf, hkv1⟩ := List.mem_map.mp hk
    have hkvmem : kv ∈ values := List.mem_of_mem_filter hkvf
    have hcond := List.of_mem_filter hkvf
    have hkmem : kv.1 ∈ values.map (·.1) := List.mem_map.mpr ⟨kv, hkvmem, rfl⟩
    have hql := _get_quotas_lookup hnames heqq kv.1 hkmem
    have hul := _get_quotas_lookup hnames hequ kv.1 hkmem
    refine ⟨kv.2, by rw [← hkv1]; exact hkvmem, hnn kv hkvmem, ?_⟩
    rw [← hkv1]
    have hq' : dictGet quotasD kv.1 =
        resolveProjectLimit projOv classDefault kv.1 := by
      simp [dictGet, hql]
    have hu' : dictGet userQuotasD kv.1 =
        resolveUserLimit userOv projOv classDefault kv.1 := by
      simp [dictGet, hul]
    rw [hq', hu'] at hcond
    simpa using hcond
  refine ⟨main, ?_⟩
  intro k hp hu hk
  obtain ⟨v, _, _, hc⟩ := main k hk
  rcases hc with ⟨h1, _⟩ | ⟨h1, _⟩ <;> omega

/-- Witness for C1: with `cores` limited to 2 at project scope and a proposed
value of 5, `limit_check` flags exactly `cores`, and the theorem's conclusion
holds at this instance. -/
theorem limit_check_unlimited_never_flagged_witness :
    limit_check novaQuotaResources
      (fun k => if k = "cores" then some 2 else none) (fun _ => none)
      (fun _ => -1) [("cores", 5)] =
      .error (.overQuota ["cores"] [("cores", 2)] [("cores", 2)]) ∧
    "ram" ∉ ["cores"] :=
  ⟨by decide,
   (limit_check_unlimited_never_flagged novaQuotaResources
      (fun k => if k = "cores" then some 2 else none) (fun _ => none)
      (fun _ => -1) [("cores", 5)] ["cores"] [("cores", 2)] [("cores", 2)]
      (by decide) (by decide)).2 "ram" (by decide) (by decide)⟩

/-- C3.  When `DbQuotaDriver.limit_check` raises `OverQuota`, the headroom of
each violated resource is `min` over the present values of the resolved
project-scope limit (`quotas.get(key)`) and the stored per-project override
(`project_quotas.get(key)`); since the resolved limit is the override
whenever the override exists, the headroom equals the applicable limit
itself — current usage plays no part.  Concretely: project limit 20 for
`cores`, proposed value 23 (usage 18 plus delta 5) raises `OverQuota` with
`overs=['cores']` and `headroom={'cores': 20}`. -/
theorem limit_check_headroom_is_limit
    (resources : List Resource) (projOv userOv : String → Option Int)
    (classDefault : String → Int) (values : List (String × Int))
    (overs : List String) (q hd : List (String × Int))
    (hnames : (resources.map (·.name)).Nodup)
    (hrun : limit_check resources projOv userOv classDefault values =
      .error (.overQuota overs q hd)) :
    (∀ k ∈ overs,
      hd.lookup k = some (match projOv k with
        | some p => min (resolveProjectLimit projOv classDefault k) p
        | none => resolveProjectLimit projOv classDefault k) ∧
      hd.lookup k = some (resolveProjectLimit projOv classDefault k)) ∧
    limit_check novaQuotaResources
      (fun k => if k = "cores" then some 20 else none) (fun _ => none)
      (fun _ => 15) [("cores", 23)] =
      .error (.overQuota ["cores"] [("cores", 20)] [("cores", 20)]) := by
  refine ⟨?_, by decide⟩
  intro k hk
  obtain ⟨quotasD, userQuotasD, heqq, hequ, hnn, ho, -, hh⟩ :=
    limit_check_overQuota_inv hrun
  rw [ho, mem_sortStrings] at hk
  obtain ⟨kv, hkvf, hkv1⟩ := List.mem_map.mp hk
  have hkvmem : kv ∈ values := List.mem_of_mem_filter hkvf
  have hkmem : k ∈ values.map (·.1) := by
    rw [← hkv1]; exact List.mem_map.mpr ⟨kv, hkvmem, rfl⟩
  have hql := _get_quotas_lookup hnames heqq k hkmem
  have hq' : dictGet quotasD k = resolveProjectLimit projOv classDefault k := by
    simp [dictGet, hql]
  have hkovers : k ∈ (values.filter fun kv =>
      (0 ≤ dictGet quotasD kv.1 && dictGet quotasD kv.1 < kv.2) ||
      (0 ≤ dictGet userQuotasD kv.1 && dictGet userQuotasD kv.1 < kv.2)).map
        (·.1) := List.mem_map.mpr ⟨kv, hkvf, hkv1⟩
  have hlook : hd.lookup k = some (match projOv k with
      | some p => min (dictGet quotasD k) p
      | none => dictGet quotasD k) := by
    rw [hh]
    exact lookup_map_self hkovers
  constructor
  · rw [hlook, hq']
  · rw [hlook, hq']
    cases hc : projOv k with
    | none => rfl
    | some p =>
        have hres : resolveProjectLimit projOv classDefault k = p := by
          simp [resolveProjectLimit, hc]
        simp [hres]

/-- Witness for C3: the cores scenario, applied through the theorem — the
headroom entry for `cores` is the resolved project limit itself (20). -/
theorem limit_check_headroom_is_limit_witness :
    limit_check novaQuotaResources
      (fun k => if k = "cores" then some 20 else none) (fun _ => none)
      (fun _ => 15) [("cores", 23)] =
      .error (.overQuota ["cores"] [("cores", 20)] [("cores", 20)]) ∧
    [("cores", (20 : Int))].lookup "cores" = some (resolveProjectLimit
      (fun k => if k = "cores" then some 20 else none) (fun _ => 15) "cores") :=
  ⟨by decide,
   ((limit_check_headroom_is_limit novaQuotaResources
      (fun k => if k = "cores" then some 20 else none) (fun _ => none)
      (fun _ => 15) [("cores", 23)] ["cores"] [("cores", 20)] [("cores", 20)]
      (by decide) (by decide)).1 "cores" (by decide)).2⟩

/-- C4. For all integers `a`, `b`: `_sum_quota_values` and `_sub_quota_values`
return the Unlimited sentinel `-1` whenever either operand is `≤ -1`, and
otherwise return `a + b` and `a - b` respectively; the sum is commutative
while the subtraction is order-dependent. -/
theorem sum_sub_quota_values_unlimited_propagation :
    (∀ a b : Int,
      _sum_quota_values a b = (if a ≤ -1 ∨ b ≤ -1 then -1 else a + b) ∧
      _sub_quota_values a b = (if a ≤ -1 ∨ b ≤ -1 then -1 else a - b) ∧
      _sum_quota_values a b = _sum_quota_values b a) ∧
    (∃ a b : Int, _sub_quota_values a b ≠ _sub_quota_values b a) := by
  constructor
  · intro a b
    refine ⟨?_, ?_, ?_⟩
    · simp [_sum_quota_values, _is_unlimited_value, UNLIMITED_VALUE]
    · simp [_sub_quota_values, _is_unlimited_value, UNLIMITED_VALUE]
    · by_cases h1 : a ≤ -1 <;> by_cases h2 : b ≤ -1 <;>
        simp [_sum_quota_values, _is_unlimited_value, UNLIMITED_VALUE, h1, h2,
          Int.add_comm]
  · exact ⟨0, 5, by decide⟩

/-- `remains` is the limit minus the plain sum of the per-user overrides. -/
theorem quotaRemains_eq_sub_sum (limit : Int) (hls : List Int) :
    quotaRemains limit hls = limit - hls.sum := by
  induction hls generalizing limit with
  | nil => simp [quotaRemains]
  | cons h t ih =>
      show quotaRemains (limit - h) t = limit - (h :: t).sum
      rw [ih, List.sum_cons]
      ring

/-- C5 counterexample: with project limit 20 and a single existing per-user
override of −1 (an unlimited user quota), the source computes
`remains = 20 − (−1) = 21` and a target user with no override gets
`maximum = 21`, whereas the claimed Unlimited-propagating `remains` is the
sentinel −1 and would give `maximum = −1`. -/
theorem settable_remains_not_unlimited_propagating :
    quotaRemains 20 [-1] = 21 ∧ specRemains 20 [-1] = -1 ∧
    (get_settable_quotas_user 20 [-1] none 0).maximum = 21 ∧
    specSettableMaximumUser 20 [-1] none = -1 ∧
    (get_settable_quotas_user 20 [-1] none 0).maximum ≠
      specSettableMaximumUser 20 [-1] none := by
  decide

/-- C5 (amended).  `get_settable_quotas` computes, per resource,
`remains = limit − (plain sum of existing per-user overrides)` — no Unlimited
propagation at this step; Unlimited propagation applies only afterwards, in
`maximum = _sum_quota_values(remains, U)` for a target user with stored
override `U` (defaulting to 0) and in
`minimum = max(_sub_quota_values(limit, remains), in_use)` with
`maximum = −1` for a project-level query.  In particular, with limit 20 and
two users granted 5 each, `remains = 10` and a target user with no override
gets `maximum = 10` and `minimum` equal to their current usage. -/
theorem get_settable_quotas_bands :
    (∀ (L : Int) (hls : List Int) (S : Option Int) (U : Int),
      get_settable_quotas_user L hls S U =
        ⟨U, _sum_quota_values (L - hls.sum) (S.getD 0)⟩) ∧
    (∀ (L : Int) (hls : List Int) (I : Int),
      get_settable_quotas_project L hls I =
        ⟨max (_sub_quota_values L (L - hls.sum)) I, -1⟩) ∧
    (quotaRemains 20 [5, 5] = 10 ∧
     ∀ U : Int, get_settable_quotas_user 20 [5, 5] none U = ⟨U, 10⟩) := by
  refine ⟨?_, ?_, by decide, ?_⟩
  · intro L hls S U
    simp [get_settable_quotas_user, quotaRemains_eq_sub_sum]
  · intro L hls I
    simp [get_settable_quotas_project, quotaRemains_eq_sub_sum]
  · intro U
    show SettableQuota.mk U (_sum_quota_values (quotaRemains 20 [5, 5]) 0) = ⟨U, 10⟩
    norm_num [quotaRemains, _sum_quota_values, _is_unlimited_value,
      UNLIMITED_VALUE]

/-- C6.  The migration-gate cache is memoizing and monotonic: once
`UID_QFD_POPULATED_CACHE_ALL` is true, `is_qfd_populated` and the gate inside
`_instances_cores_ram_count` answer `true` without running the existence
query and leave the cache unchanged, whatever the database would now say;
once a project is in `UID_QFD_POPULATED_CACHE_BY_PROJECT`, the gate answers
`true` for it without the query; and no call ever removes a cached `true`
(globally or per project). -/
theorem qfd_cache_monotonic_and_memoizing :
    (∀ (db : Bool) (s : QfdCache), s.all = true →
      is_qfd_populated db s = (true, false, s)) ∧
    (∀ (db : Bool) (s : QfdCache) (pid : String), s.all = true →
      instances_cores_ram_count_gate db pid s = (true, false, s)) ∧
    (∀ (db : Bool) (s : QfdCache) (pid : String), pid ∈ s.byProject →
      instances_cores_ram_count_gate db pid s = (true, false, s)) ∧
    (∀ (db : Bool) (s : QfdCache), s.all = true →
      (is_qfd_populated db s).2.2.all = true) ∧
    (∀ (db : Bool) (s : QfdCache) (pid p : String), p ∈ s.byProject →
      p ∈ (instances_cores_ram_count_gate db pid s).2.2.byProject) ∧
    (∀ (db : Bool) (s : QfdCache) (pid : String), s.all = true →
      (instances_cores_ram_count_gate db pid s).2.2.all = true) := by
  refine ⟨?_, ?_, ?_, ?_, ?_, ?_⟩
  · intro db s h
    simp [is_qfd_populated, h]
  · intro db s pid h
    simp [instances_cores_ram_count_gate, h]
  · intro db s pid h
    simp only [instances_cores_ram_count_gate]
    have hc : s.byProject.contains pid = true := List.elem_eq_true_of_mem h
    simp [hc]
    exact fun _ => h
  · intro db s h
    simp [is_qfd_populated, h]
  · intro db s pid p h
    simp only [instances_cores_ram_count_gate]
    split
    · cases db <;> simp [h]
    · simpa using h
  · intro db s pid h
    simp [instances_cores_ram_count_gate, h]

/-- Witness for C6: a warm global cache answers `true` with no query, and a
warm per-project cache does the same for its project. -/
theorem qfd_cache_monotonic_and_memoizing_witness :
    (QfdCache.mk true []).all = true ∧
    is_qfd_populated false ⟨true, []⟩ = (true, false, ⟨true, []⟩) ∧
    instances_cores_ram_count_gate false "p1" ⟨false, ["p1"]⟩ =
      (true, false, ⟨false, ["p1"]⟩) :=
  ⟨rfl,
   qfd_cache_monotonic_and_memoizing.1 false ⟨true, []⟩ rfl,
   qfd_cache_monotonic_and_memoizing.2.2.1 false ⟨false, ["p1"]⟩ "p1"
     (by decide)⟩

/-- Folding the per-cell accumulation over any result list gives the same
totals as folding over the non-sentinel results only. -/
theorem legacy_foldl_skips_failures (hasUser : Bool) (init : TotalCounts)
    (rs : List CellResult) :
    rs.foldl (legacyAddCell hasUser) init =
      (rs.filter fun r => !is_cell_failure_sentinel r).foldl
        (legacyAddCell hasUser) init := by
  induction rs generalizing init with
  | nil => rfl
  | cons r t ih =>
      cases r with
      | failed =>
          simpa [legacyAddCell, is_cell_failure_sentinel] using ih init
      | counts p u =>
          simp only [List.foldl_cons, List.filter_cons, is_cell_failure_sentinel,
            Bool.not_false, if_pos]
          exact ih _

/-- C8.  `_instances_cores_ram_count_legacy` never fails on a failed cell:
its totals are exactly the sums over the non-sentinel cells, each
failure-sentinel cell contributing zero — dropping the sentinels (or one
leading sentinel) leaves the totals unchanged; with three cells of which the
middle one failed, the totals are the sums of the other two. -/
theorem legacy_count_tolerates_failed_cells :
    (∀ (hasUser : Bool) (rs : List CellResult),
      _instances_cores_ram_count_legacy hasUser rs =
        _instances_cores_ram_count_legacy hasUser
          (rs.filter fun r => !is_cell_failure_sentinel r)) ∧
    (∀ (hasUser : Bool) (rs : List CellResult),
      _instances_cores_ram_count_legacy hasUser (.failed :: rs) =
        _instances_cores_ram_count_legacy hasUser rs) ∧
    (_instances_cores_ram_count_legacy true
      [.counts ⟨1, 2, 512⟩ ⟨1, 2, 512⟩, .failed,
       .counts ⟨3, 4, 1024⟩ ⟨2, 2, 768⟩] =
      ⟨⟨4, 6, 1536⟩, some ⟨3, 4, 1280⟩⟩) := by
  refine ⟨?_, ?_, by decide⟩
  · intro hasUser rs
    exact legacy_foldl_skips_failures hasUser _ rs
  · intro hasUser rs
    rfl

/-- Replacing in place the entries keyed `k` of an association list that has
one yields `v` on lookup of `k`. -/
theorem lookup_map_replace {d : List (String × Resource)} {k : String}
    {v : Resource} (hany : d.any (·.1 == k) = true) :
    (d.map fun kv => if kv.1 = k then (k, v) else kv).lookup k = some v := by
  induction d with
  | nil => cases hany
  | cons kv0 t ih =>
      rw [List.map_cons]
      by_cases hk : kv0.1 = k
      · rw [if_pos hk, List.lookup_cons, show (k == k) = true by simp]
      · rw [if_neg hk]
        have ht : t.any (·.1 == k) = true := by
          simpa [List.any_cons, beq_false_of_ne hk] using hany
        have hb : (k == kv0.1) = false := beq_false_of_ne fun hh => hk hh.symm
        cases kv0 with
        | mk k0 v0 => rw [List.lookup_cons, hb]; exact ih ht

theorem lookup_append_single {d : List (String × Resource)} {k : String}
    {v : Resource} (hany : d.any (·.1 == k) = false) :
    (d ++ [(k, v)]).lookup k = some v := by
  induction d with
  | nil => rw [List.nil_append, List.lookup_cons, show (k == k) = true by simp]
  | cons kv0 t ih =>
      rw [List.any_cons] at hany
      have hk : (kv0.1 == k) = false := (Bool.or_eq_false_iff.mp hany).1
      have ht : t.any (·.1 == k) = false := (Bool.or_eq_false_iff.mp hany).2
      have hb : (k == kv0.1) = false :=
        beq_false_of_ne (Ne.symm (ne_of_beq_false hk))
      cases kv0 with
      | mk k0 v0 =>
          rw [List.cons_append, List.lookup_cons, hb]
          exact ih ht

theorem dictInsert_lookup_self (d : List (String × Resource)) (k : String)
    (v : Resource) : (dictInsert d k v).lookup k = some v := by
  unfold dictInsert
  split
  · next hany => exact lookup_map_replace hany
  · next hany =>
      refine lookup_append_single ?_
      revert hany
      cases d.any (·.1 == k) <;> simp

theorem dictInsert_lookup_ne (d : List (String × Resource)) {n k : String}
    (v : Resource) (h : n ≠ k) : (dictInsert d k v).lookup n = d.lookup n := by
  have hb : (n == k) = false := beq_false_of_ne h
  unfold dictInsert
  split
  · next hany =>
    clear hany
    induction d with
    | nil => rfl
    | cons kv0 t ih =>
        rw [List.map_cons]
        by_cases hk : kv0.1 = k
        · cases kv0 with
          | mk k0 v0 =>
              have hk' : k0 = k := hk
              rw [if_pos hk, List.lookup_cons, List.lookup_cons, hb, hk', hb]
              exact ih
        · cases kv0 with
          | mk k0 v0 =>
              rw [if_neg hk, List.lookup_cons, List.lookup_cons]
              cases hbn : (n == k0)
              · exact ih
              · rfl
  · next hany =>
    clear hany
    induction d with
    | nil => rw [List.nil_append, List.lookup_cons, hb]
    | cons kv0 t ih =>
        cases kv0 with
        | mk k0 v0 =>
            rw [List.cons_append, List.lookup_cons, List.lookup_cons]
            cases hbn : (n == k0)
            · exact ih
            · rfl

/-- C9 counterexample: constructing the registry with two descriptors named
`instances` raises no error; the build yields a single entry holding the
later descriptor — the later registration silently replaces the earlier
one. -/
theorem quota_engine_duplicate_name_silently_replaced :
    quotaEngineInitResources
      [⟨"instances", "check", some "one", true⟩,
       ⟨"instances", "check", some "two", true⟩] =
      [("instances", ⟨"instances", "check", some "two", true⟩)] ∧
    (⟨"instances", "check", some "two", true⟩ : Resource) ≠
      ⟨"instances", "check", some "one", true⟩ := by
  decide

/-- Lookup after the registry fold: the most recent descriptor with the name
wins, falling back to the accumulator. -/
theorem quotaEngineInit_foldl_lookup (rs : List Resource)
    (d : List (String × Resource)) (n : String) :
    (rs.foldl (fun d r => dictInsert d r.name r) d).lookup n =
      (rs.reverse.find? fun r => r.name == n).or (d.lookup n) := by
  induction rs generalizing d with
  | nil => simp
  | cons r t ih =>
      rw [List.foldl_cons, ih, List.reverse_cons, List.find?_append]
      cases hf : t.reverse.find? (fun r => r.name == n) with
      | some r' => rfl
      | none =>
          by_cases hn : r.name = n
          · subst hn
            have hfind : List.find? (fun x => x.name == r.name) [r] = some r :=
              List.find?_cons_of_pos _ (by simp)
            have hself := dictInsert_lookup_self d r.name r
            rw [hfind, hself]
            rfl
          · have hfind : List.find? (fun x => x.name == n) [r] = none := by
              simp [List.find?, beq_false_of_ne hn]
            have hput := dictInsert_lookup_ne d r (Ne.symm hn)
            rw [hfind, hput]
            rfl

theorem dictInsert_keys_nodup {d : List (String × Resource)} (k : String)
    (v : Resource) (h : (d.map (·.1)).Nodup) :
    ((dictInsert d k v).map (·.1)).Nodup := by
  unfold dictInsert
  split
  · next hany =>
    have hmap : (d.map fun kv => if kv.1 = k then (k, v) else kv).map (·.1) =
        d.map (·.1) := by
      rw [List.map_map]
      refine List.map_congr_left fun kv hkv => ?_
      by_cases hk : kv.1 = k
      · simp only [Function.comp, if_pos hk]
        exact hk.symm
      · simp only [Function.comp, if_neg hk]
    rw [hmap]
    exact h
  · next hany =>
    have hany' : d.any (·.1 == k) = false := by
      cases hx : d.any (·.1 == k)
      · rfl
      · exact absurd hx hany
    have hk : k ∉ d.map (·.1) := by
      intro hmem
      obtain ⟨kv, hkv, hkeq⟩ := List.mem_map.mp hmem
      have hx : d.any (·.1 == k) = true :=
        List.any_eq_true.mpr ⟨kv, hkv, beq_iff_eq.mpr hkeq⟩
      rw [hany'] at hx
      cases hx
    simp only [List.map_append, List.map_cons, List.map_nil]
    rw [List.nodup_append]
    exact ⟨h, List.nodup_singleton k, by simpa using hk⟩

/-- C9 (amended).  `QuotaEngine.__init__` performs no duplicate-name
validation: the registry is a plain dictionary build in which a later
descriptor with the same name silently replaces the earlier one (last
registration wins), and the resulting registry maps each name to at most one
descriptor — the most recently registered with that name. -/
theorem quota_engine_init_last_wins :
    (∀ rs : List Resource, ((quotaEngineInitResources rs).map (·.1)).Nodup) ∧
    (∀ (rs : List Resource) (n : String),
      (quotaEngineInitResources rs).lookup n =
        rs.reverse.find? fun r => r.name == n) := by
  constructor
  · intro rs
    suffices hgen : ∀ (rs : List Resource) (d : List (String × Resource)),
        (d.map (·.1)).Nodup →
        ((rs.foldl (fun d r => dictInsert d r.name r) d).map (·.1)).Nodup by
      exact hgen rs [] (by simp)
    intro rs
    induction rs with
    | nil => exact fun d h => h
    | cons r t ih =>
        intro d h
        exact ih _ (dictInsert_keys_nodup r.name r h)
  · intro rs n
    rw [quotaEngineInitResources, quotaEngineInit_foldl_lookup]
    cases rs.reverse.find? (fun r => r.name == n) <;> rfl

/-- C7 counterexample: a limit check invoked with the unregistered resource
name `bogus` raises `InvalidQuotaMethodUsage` (from
`_valid_method_call_check_resource`), not `QuotaResourceUnknown` as the claim
states. -/
theorem limit_check_unknown_name_not_unknown_error :
    limit_check novaQuotaResources (fun _ => none) (fun _ => none)
      (fun _ => 10) [("bogus", 1)] =
      .error (.invalidQuotaMethodUsage "check" "bogus") ∧
    (Except.error (QuotaError.invalidQuotaMethodUsage "check" "bogus") :
      Except QuotaError Unit) ≠ .error (.quotaResourceUnknown ["bogus"]) := by
  decide

/-- C7 (amended).  Unknown resource names are rejected before any limit is
resolved, but the error kind depends on the path: (a) `_get_quotas` (the
retrieval helper) raises `QuotaResourceUnknown` carrying exactly the sorted
set of offending names whenever some requested key is unregistered, returning
no limits; (b) the limit checks validate names first through
`_valid_method_call_check_resources` and raise `InvalidQuotaMethodUsage`
naming the first offending resource in iteration order — not
`QuotaResourceUnknown`; (c) the single-resource `QuotaEngine.count_as_dict`
raises `QuotaResourceUnknown` carrying exactly `[name]`. -/
theorem unknown_resource_error_paths :
    (∀ (rs : List Resource) (keys : List String) (f : String → Int),
      (rs.map (·.name)).Nodup →
      (∃ k ∈ keys, k ∉ rs.map (·.name)) →
      _get_quotas rs keys f = .error (.quotaResourceUnknown
        (sortStrings ((keys.filter fun k =>
          !(rs.map (·.name)).contains k).dedup)))) ∧
    (∀ (rs : List Resource) (projOv userOv : String → Option Int)
        (cd : String → Int) (vs1 vs2 : List (String × Int)) (k : String)
        (v : Int),
      (rs.map (·.name)).Nodup →
      (∀ kv ∈ vs1, checkableIn rs kv.1) →
      k ∉ rs.map (·.name) →
      limit_check rs projOv userOv cd (vs1 ++ (k, v) :: vs2) =
        .error (.invalidQuotaMethodUsage "check" k)) ∧
    (∀ (registry : List (String × Resource)) (name : String),
      registry.lookup name = none →
      count_as_dict_lookup registry name =
        .error (.quotaResourceUnknown [name])) := by
  refine ⟨?_, ?_, ?_⟩
  · rintro rs keys f hnames ⟨k0, hk0, hk0n⟩
    have hsubper : List.Subperm
        ((rs.map (·.name)).filter fun n => keys.contains n) keys :=
      List.subperm_of_subset (hnames.filter _)
        (fun n hn => by simpa using List.of_mem_filter hn)
    have hne : keys.length ≠
        ((rs.map (·.name)).filter fun n => keys.contains n).length := by
      intro hlen
      have hperm := hsubper.perm_of_length_le (le_of_eq hlen)
      have hksub : k0 ∈ (rs.map (·.name)).filter fun n => keys.contains n :=
        hperm.mem_iff.mpr hk0
      exact hk0n (List.mem_filter.mp hksub).1
    unfold _get_quotas
    rw [if_pos hne]
  · intro rs projOv userOv cd vs1 vs2 k v hnames hvs1 hkn
    have h1 : (vs1.findSome? fun kv =>
        _valid_method_call_check_resource kv.1 "check" rs) = none := by
      rw [List.findSome?_eq_none_iff]
      exact fun kv hkv => valid_check_resource_none hnames (hvs1 kv hkv)
    have h2 : _valid_method_call_check_resource k "check" rs =
        some (.invalidQuotaMethodUsage "check" k) := by
      unfold _valid_method_call_check_resource
      have hfind : rs.find? (fun r => r.name == k) = none := by
        rw [List.find?_eq_none]
        intro r hr hbeq
        exact hkn (List.mem_map.mpr ⟨r, hr, eq_of_beq hbeq⟩)
      rw [hfind]
    have hval : _valid_method_call_check_resources (vs1 ++ (k, v) :: vs2)
        "check" rs = some (.invalidQuotaMethodUsage "check" k) := by
      rw [_valid_method_call_check_resources, List.findSome?_append, h1,
        List.findSome?_cons]
      rw [show _valid_method_call_check_resource (k, v).1 "check" rs =
        some (.invalidQuotaMethodUsage "check" k) from h2]
      rfl
    simp only [limit_check]
    rw [hval]
  · intro registry name hnone
    unfold count_as_dict_lookup
    rw [hnone]

/-- Witness for C7: each of the three paths exercised at a concrete input. -/
theorem unknown_resource_error_paths_witness :
    _get_quotas novaQuotaResources ["zzz", "cores", "aaa"] (fun _ => 7) =
      .error (.quotaResourceUnknown
        (sortStrings ((["zzz", "cores", "aaa"].filter fun k =>
          !(novaQuotaResources.map (·.name)).contains k).dedup))) ∧
    limit_check novaQuotaResources (fun _ => none) (fun _ => none)
      (fun _ => 10) ([] ++ ("bogus", (1 : Int)) :: []) =
      .error (.invalidQuotaMethodUsage "check" "bogus") ∧
    count_as_dict_lookup [] "nope" = .error (.quotaResourceUnknown ["nope"]) :=
  ⟨unknown_resource_error_paths.1 novaQuotaResources ["zzz", "cores", "aaa"]
     (fun _ => 7) (by decide) ⟨"zzz", by decide, by decide⟩,
   unknown_resource_error_paths.2.1 novaQuotaResources (fun _ => none)
     (fun _ => none) (fun _ => 10) [] [] "bogus" 1 (by decide) (by simp)
     (by decide),
   unknown_resource_error_paths.2.2 [] "nope" rfl⟩

/-- For an entry of the project dictionary, surviving the
symmetric-difference pops is the same as having its key in the user
dictionary. -/
theorem keys_to_merge_contains_left {pv uv : List (String × Int)}
    {kv : String × Int} (hkv : kv ∈ pv) :
    (!((pv.map (·.1)).filter (fun k => !(uv.map (·.1)).contains k) ++
       (uv.map (·.1)).filter (fun k => !(pv.map (·.1)).contains k)).contains
        kv.1) = (uv.map (·.1)).contains kv.1 := by
  have hp : kv.1 ∈ pv.map (·.1) := List.mem_map.mpr ⟨kv, hkv, rfl⟩
  by_cases hm : kv.1 ∈ uv.map (·.1) <;> simp [hm, hp]

/-- For an entry of the user dictionary, surviving the symmetric-difference
pops is the same as having its key in the project dictionary. -/
theorem keys_to_merge_contains_right {pv uv : List (String × Int)}
    {kv : String × Int} (hkv : kv ∈ uv) :
    (!((pv.map (·.1)).filter (fun k => !(uv.map (·.1)).contains k) ++
       (uv.map (·.1)).filter (fun k => !(pv.map (·.1)).contains k)).contains
        kv.1) = (pv.map (·.1)).contains kv.1 := by
  have hu : kv.1 ∈ uv.map (·.1) := List.mem_map.mpr ⟨kv, hkv, rfl⟩
  by_cases hm : kv.1 ∈ pv.map (·.1) <;> simp [hm, hu]

/-- C10.  `limit_check_project_and_user` mutates its caller-supplied
dictionaries: once validation passes, every key in the symmetric difference
of the two key sets is popped from both dictionaries before any check runs,
so after the call — whatever its outcome, including success — the caller's
dictionaries hold exactly the entries whose keys occur in both. -/
theorem limit_check_project_and_user_mutates_inputs
    (resources : List Resource) (projOv userOv : String → Option Int)
    (cd : String → Int) (pv uv : List (String × Int))
    (hnames : (resources.map (·.name)).Nodup)
    (hvalid : ∀ kv ∈ pv ++ uv, checkableIn resources kv.1)
    (hnonneg : ∀ kv ∈ pv ++ uv, (0 : Int) ≤ kv.2)
    (hne : ¬(pv = [] ∧ uv = [])) :
    (limit_check_project_and_user resources projOv userOv cd pv
        uv).project_values =
      pv.filter (fun kv => (uv.map (·.1)).contains kv.1) ∧
    (limit_check_project_and_user resources projOv userOv cd pv
        uv).user_values =
      uv.filter (fun kv => (pv.map (·.1)).contains kv.1) := by
  have hval1 : _valid_method_call_check_resources pv "check" resources = none :=
    valid_check_resources_none hnames fun kv h =>
      hvalid kv (List.mem_append.mpr (Or.inl h))
  have hval2 : _valid_method_call_check_resources uv "check" resources = none :=
    valid_check_resources_none hnames fun kv h =>
      hvalid kv (List.mem_append.mpr (Or.inr h))
  have hpneg : (pv.filter fun kv => decide (kv.2 < 0)) = [] :=
    List.filter_eq_nil_iff.mpr fun kv h => by
      simpa using hnonneg kv (List.mem_append.mpr (Or.inl h))
  have huneg : (uv.filter fun kv => decide (kv.2 < 0)) = [] :=
    List.filter_eq_nil_iff.mpr fun kv h => by
      simpa using hnonneg kv (List.mem_append.mpr (Or.inr h))
  have hboth : (pv.isEmpty && uv.isEmpty) = false := by
    rcases pv with _ | ⟨a, t⟩
    · rcases uv with _ | ⟨b, s⟩
      · exact absurd ⟨rfl, rfl⟩ hne
      · rfl
    · rfl
  have hfp : pv.filter (fun kv =>
      !((pv.map (·.1)).filter (fun k => !(uv.map (·.1)).contains k) ++
        (uv.map (·.1)).filter (fun k => !(pv.map (·.1)).contains k)).contains
          kv.1) = pv.filter (fun kv => (uv.map (·.1)).contains kv.1) :=
    List.filter_congr fun kv hkv => keys_to_merge_contains_left hkv
  have hfu : uv.filter (fun kv =>
      !((pv.map (·.1)).filter (fun k => !(uv.map (·.1)).contains k) ++
        (uv.map (·.1)).filter (fun k => !(pv.map (·.1)).contains k)).contains
          kv.1) = uv.filter (fun kv => (pv.map (·.1)).contains kv.1) :=
    List.filter_congr fun kv hkv => keys_to_merge_contains_right hkv
  constructor <;>
  · simp only [limit_check_project_and_user, hval1, hval2, hboth, hpneg, huneg,
      List.map_nil, List.isEmpty_nil, Bool.not_true, Bool.false_eq_true,
      if_false]
    repeat' split
    all_goals simp only [hfp, hfu]

/-- The overs accumulated by the per-scope loop are the user-dictionary keys
whose project-scope check or (elif) user-scope check triggers. -/
theorem scopeCheckLoop_fst (qd ud pvd uvd : List (String × Int)) :
    (scopeCheckLoop qd ud pvd uvd).1 =
      (uvd.map (·.1)).filter fun k =>
        decide (0 ≤ dictGet qd k ∧ dictGet qd k < dictGet pvd k) ||
        decide (0 ≤ dictGet ud k ∧ dictGet ud k < dictGet uvd k) := by
  unfold scopeCheckLoop
  suffices h : ∀ (l : List String) (acc : List String × Bool),
      (l.foldl (fun (acc : List String × Bool) k =>
        if 0 ≤ dictGet qd k ∧ dictGet qd k < dictGet pvd k then
          (acc.1 ++ [k], acc.2)
        else if 0 ≤ dictGet ud k ∧ dictGet ud k < dictGet uvd k then
          (acc.1 ++ [k], true)
        else acc) acc).1 =
      acc.1 ++ l.filter (fun k =>
        decide (0 ≤ dictGet qd k ∧ dictGet qd k < dictGet pvd k) ||
        decide (0 ≤ dictGet ud k ∧ dictGet ud k < dictGet uvd k)) by
    simpa using h (uvd.map (·.1)) ([], false)
  intro l
  induction l with
  | nil => intro acc; simp
  | cons k t ih =>
      intro acc
      rw [List.foldl_cons, List.filter_cons]
      by_cases h1 : 0 ≤ dictGet qd k ∧ dictGet qd k < dictGet pvd k
      · rw [if_pos h1, ih]
        simp [h1]
      · rw [if_neg h1]
        by_cases h2 : 0 ≤ dictGet ud k ∧ dictGet ud k < dictGet uvd k
        · rw [if_pos h2, ih]
          simp [h1, h2]
        · rw [if_neg h2, ih]
          simp [h1, h2]

/-- Filtering an association list by a predicate that holds on its `k`-keyed
entries does not change the lookup of `k`. -/
theorem lookup_filter_keys {l : List (String × Int)} {p : String × Int → Bool}
    {k : String} (hkp : ∀ kv ∈ l, kv.1 = k → p kv = true) :
    (l.filter p).lookup k = l.lookup k := by
  induction l with
  | nil => rfl
  | cons kv0 t ih =>
      have iht := fun kv hkv hkvk => hkp kv (List.mem_cons_of_mem kv0 hkv) hkvk
      by_cases hk : kv0.1 = k
      · rw [List.filter_cons_of_pos (hkp kv0 (List.mem_cons_self kv0 t) hk)]
        cases kv0 with
        | mk k0 v0 =>
            rw [List.lookup_cons, List.lookup_cons]
            cases hbn : (k == k0)
            · exact ih iht
            · rfl
      · cases hp : p kv0
        · rw [List.filter_cons_of_neg (by simp [hp])]
          cases kv0 with
          | mk k0 v0 =>
              have hb : (k == k0) = false := beq_false_of_ne fun hh => hk hh.symm
              rw [List.lookup_cons, hb]
              exact ih iht
        · rw [List.filter_cons_of_pos hp]
          cases kv0 with
          | mk k0 v0 =>
              rw [List.lookup_cons, List.lookup_cons]
              cases hbn : (k == k0)
              · exact ih iht
              · rfl

/-- Closed form of the merged-phase check: it raises exactly when the overs
list (over the pointwise-minimum limits) is nonempty, whether or not the
merged value-set itself is empty. -/
theorem mergedPhaseCheck_eq (qd ud mv : List (String × Int)) :
    mergedPhaseCheck qd ud mv =
      if ((mv.filter fun kv =>
          0 ≤ dictGet (qd.map fun kv => (kv.1, min kv.2 (dictGet ud kv.1))) kv.1 &&
          dictGet (qd.map fun kv => (kv.1, min kv.2 (dictGet ud kv.1))) kv.1 <
            kv.2).map (·.1)).isEmpty then
        .ok ()
      else
        .error (.overQuota
          (sortStrings ((mv.filter fun kv =>
            0 ≤ dictGet (qd.map fun kv => (kv.1, min kv.2 (dictGet ud kv.1))) kv.1 &&
            dictGet (qd.map fun kv => (kv.1, min kv.2 (dictGet ud kv.1))) kv.1 <
              kv.2).map (·.1)))
          (qd.map fun kv => (kv.1, min kv.2 (dictGet ud kv.1)))
          (((mv.filter fun kv =>
            0 ≤ dictGet (qd.map fun kv => (kv.1, min kv.2 (dictGet ud kv.1))) kv.1 &&
            dictGet (qd.map fun kv => (kv.1, min kv.2 (dictGet ud kv.1))) kv.1 <
              kv.2).map (·.1)).map fun k =>
            (k, dictGet (qd.map fun kv => (kv.1, min kv.2 (dictGet ud kv.1))) k))) := by
  simp only [mergedPhaseCheck]
  cases hmv : mv.isEmpty with
  | true =>
      have hnil : mv = [] := List.isEmpty_iff.mp hmv
      subst hnil
      simp
  | false =>
      simp only [hmv, Bool.not_false, if_true]
      cases hovE : ((mv.filter fun kv =>
          0 ≤ dictGet (qd.map fun kv => (kv.1, min kv.2 (dictGet ud kv.1))) kv.1 &&
          dictGet (qd.map fun kv => (kv.1, min kv.2 (dictGet ud kv.1))) kv.1 <
            kv.2).map (·.1)).isEmpty with
      | true => simp only [hovE, Bool.not_true, Bool.false_eq_true, if_false,
          if_true]
      | false => simp only [hovE, Bool.not_false, if_true, Bool.false_eq_true,
          if_false]

/-- Closed form of the per-scope check: it raises exactly when the per-scope
overs (the user-dictionary keys violating the project-scope or user-scope
limit) are nonempty; the quotas/headroom payload comes from one of the two
limit dictionaries. -/
theorem scopePhaseCheck_eq (qd ud pvd uvd : List (String × Int)) :
    scopePhaseCheck qd ud pvd uvd =
      if (((uvd.map (·.1)).filter fun k =>
          decide (0 ≤ dictGet qd k ∧ dictGet qd k < dictGet pvd k) ||
          decide (0 ≤ dictGet ud k ∧ dictGet ud k < dictGet uvd k))).isEmpty then
        .ok ()
      else
        .error (.overQuota
          (sortStrings (((uvd.map (·.1)).filter fun k =>
            decide (0 ≤ dictGet qd k ∧ dictGet qd k < dictGet pvd k) ||
            decide (0 ≤ dictGet ud k ∧ dictGet ud k < dictGet uvd k))))
          (if (scopeCheckLoop qd ud pvd uvd).2 then ud else qd)
          ((((uvd.map (·.1)).filter fun k =>
            decide (0 ≤ dictGet qd k ∧ dictGet qd k < dictGet pvd k) ||
            decide (0 ≤ dictGet ud k ∧ dictGet ud k < dictGet uvd k))).map
              fun k =>
                (k, dictGet (if (scopeCheckLoop qd ud pvd uvd).2 then ud else qd)
                  k))) := by
  simp only [scopePhaseCheck]
  rw [scopeCheckLoop_fst]
  cases hovE : (((uvd.map (·.1)).filter fun k =>
      decide (0 ≤ dictGet qd k ∧ dictGet qd k < dictGet pvd k) ||
      decide (0 ≤ dictGet ud k ∧ dictGet ud k < dictGet uvd k))).isEmpty with
  | true => simp only [hovE, Bool.not_true, Bool.false_eq_true, if_false,
      if_true]
  | false => simp only [hovE, Bool.not_false, if_true, Bool.false_eq_true,
      if_false]

theorem dictGet_map_self {f : String → Int} {l : List String} {k : String}
    (h : k ∈ l) : dictGet (l.map fun a => (a, f a)) k = f k := by
  simp [dictGet, lookup_map_self h]

/-- The merged-quotas dictionary is the pointwise minimum of the two resolved
limits. -/
theorem merged_quotas_eq (projOv userOv : String → Option Int)
    (cd : String → Int) (subN : List String) :
    ((subN.map fun k => (k, resolveProjectLimit projOv cd k)).map fun kv =>
      (kv.1, min kv.2 (dictGet (subN.map fun k =>
        (k, resolveUserLimit userOv projOv cd k)) kv.1))) =
    subN.map fun k => (k, minLimit projOv userOv cd k) := by
  rw [List.map_map]
  refine List.map_congr_left fun k hk => ?_
  simp [Function.comp, dictGet_map_self hk, minLimit]

/-- Projecting the keys of a key-filtered association list equals filtering
the projected keys. -/
theorem map_fst_filter_keys (p : String → Bool) (l : List (String × Int)) :
    (l.filter fun kv => p kv.1).map (·.1) = (l.map (·.1)).filter p := by
  induction l with
  | nil => rfl
  | cons kv t ih =>
      cases hp : p kv.1 <;> simp [List.filter_cons, hp, ih]

/-- The overs computed by the merged phase over the raw dictionaries equal
`projectUserMergedOvers`. -/
theorem merged_overs_eq (resources : List Resource)
    (projOv userOv : String → Option Int) (cd : String → Int)
    (pv uv : List (String × Int))
    (hsub : ∀ k ∈ pv.map (·.1) ++ uv.map (·.1), k ∈ resources.map (·.name)) :
    (((((pv.map (·.1)).filter fun k => !(uv.map (·.1)).contains k) ++
        ((uv.map (·.1)).filter fun k => !(pv.map (·.1)).contains k)).map fun k =>
        (k, if (pv.lookup k).getD 0 = 0 then (uv.lookup k).getD 0
            else (pv.lookup k).getD 0)).filter fun kv =>
        0 ≤ dictGet (((resources.map (·.name)).filter fun n =>
              ((pv.map (·.1) ++ uv.map (·.1)).dedup).contains n).map fun k =>
              (k, minLimit projOv userOv cd k)) kv.1 &&
        dictGet (((resources.map (·.name)).filter fun n =>
              ((pv.map (·.1) ++ uv.map (·.1)).dedup).contains n).map fun k =>
              (k, minLimit projOv userOv cd k)) kv.1 < kv.2).map (·.1) =
      projectUserMergedOvers projOv userOv cd pv uv := by
  rw [List.filter_map, List.map_map]
  have hid : List.map
      ((fun x => x.1) ∘ fun k =>
        ((k : String), if (pv.lookup k).getD 0 = 0 then (uv.lookup k).getD 0
            else (pv.lookup k).getD 0))
      ((((pv.map (·.1)).filter fun k => !(uv.map (·.1)).contains k) ++
        ((uv.map (·.1)).filter fun k => !(pv.map (·.1)).contains k)).filter
        ((fun kv =>
          0 ≤ dictGet (((resources.map (·.name)).filter fun n =>
                ((pv.map (·.1) ++ uv.map (·.1)).dedup).contains n).map fun k =>
                (k, minLimit projOv userOv cd k)) kv.1 &&
          dictGet (((resources.map (·.name)).filter fun n =>
                ((pv.map (·.1) ++ uv.map (·.1)).dedup).contains n).map fun k =>
                (k, minLimit projOv userOv cd k)) kv.1 < kv.2) ∘ fun k =>
          (k, if (pv.lookup k).getD 0 = 0 then (uv.lookup k).getD 0
              else (pv.lookup k).getD 0))) =
      List.map id
      ((((pv.map (·.1)).filter fun k => !(uv.map (·.1)).contains k) ++
        ((uv.map (·.1)).filter fun k => !(pv.map (·.1)).contains k)).filter
        ((fun kv =>
          0 ≤ dictGet (((resources.map (·.name)).filter fun n =>
                ((pv.map (·.1) ++ uv.map (·.1)).dedup).contains n).map fun k =>
                (k, minLimit projOv userOv cd k)) kv.1 &&
          dictGet (((resources.map (·.name)).filter fun n =>
                ((pv.map (·.1) ++ uv.map (·.1)).dedup).contains n).map fun k =>
                (k, minLimit projOv userOv cd k)) kv.1 < kv.2) ∘ fun k =>
          (k, if (pv.lookup k).getD 0 = 0 then (uv.lookup k).getD 0
              else (pv.lookup k).getD 0))) :=
    List.map_congr_left fun a _ => rfl
  rw [hid, List.map_id]
  simp only [projectUserMergedOvers, mergedKeys]
  refine List.filter_congr fun k hk => ?_
  have hk' : k ∈ pv.map (·.1) ++ uv.map (·.1) := by
    rcases List.mem_append.mp hk with h | h
    · exact List.mem_append.mpr (Or.inl (List.mem_of_mem_filter h))
    · exact List.mem_append.mpr (Or.inr (List.mem_of_mem_filter h))
  have hsubN : k ∈ (resources.map (·.name)).filter fun n =>
      ((pv.map (·.1) ++ uv.map (·.1)).dedup).contains n :=
    List.mem_filter.mpr ⟨hsub k hk', by simpa using List.mem_dedup.mpr hk'⟩
  have hmins := dictGet_map_self (f := fun k => minLimit projOv userOv cd k) hsubN
  simp only [Function.comp]
  rw [hmins]
  simp [Bool.decide_and, mergedValue]

/-- The overs computed by the per-scope phase over the raw dictionaries equal
`projectUserScopeOvers`. -/
theorem scope_overs_eq (resources : List Resource)
    (projOv userOv : String → Option Int) (cd : String → Int)
    (pv uv : List (String × Int))
    (hsub : ∀ k ∈ pv.map (·.1) ++ uv.map (·.1), k ∈ resources.map (·.name)) :
    (((uv.filter fun kv => (pv.map (·.1)).contains kv.1).map (·.1)).filter
      fun k =>
        decide (0 ≤ dictGet (((resources.map (·.name)).filter fun n =>
              ((pv.map (·.1) ++ uv.map (·.1)).dedup).contains n).map fun k =>
              (k, resolveProjectLimit projOv cd k)) k ∧
          dictGet (((resources.map (·.name)).filter fun n =>
              ((pv.map (·.1) ++ uv.map (·.1)).dedup).contains n).map fun k =>
              (k, resolveProjectLimit projOv cd k)) k <
          dictGet (pv.filter fun kv => (uv.map (·.1)).contains kv.1) k) ||
        decide (0 ≤ dictGet (((resources.map (·.name)).filter fun n =>
              ((pv.map (·.1) ++ uv.map (·.1)).dedup).contains n).map fun k =>
              (k, resolveUserLimit userOv projOv cd k)) k ∧
          dictGet (((resources.map (·.name)).filter fun n =>
              ((pv.map (·.1) ++ uv.map (·.1)).dedup).contains n).map fun k =>
              (k, resolveUserLimit userOv projOv cd k)) k <
          dictGet (uv.filter fun kv => (pv.map (·.1)).contains kv.1) k)) =
      projectUserScopeOvers projOv userOv cd pv uv := by
  rw [map_fst_filter_keys]
  simp only [projectUserScopeOvers]
  refine List.filter_congr fun k hk => ?_
  obtain ⟨hkuv, hkpv'⟩ := List.mem_filter.mp hk
  have hkpv : k ∈ pv.map (·.1) := by simpa using hkpv'
  have hk' : k ∈ pv.map (·.1) ++ uv.map (·.1) := List.mem_append.mpr (Or.inl hkpv)
  have hsubN : k ∈ (resources.map (·.name)).filter fun n =>
      ((pv.map (·.1) ++ uv.map (·.1)).dedup).contains n :=
    List.mem_filter.mpr ⟨hsub k hk', by simpa using List.mem_dedup.mpr hk'⟩
  have hpvf : dictGet (pv.filter fun kv => (uv.map (·.1)).contains kv.1) k =
      (pv.lookup k).getD 0 := by
    unfold dictGet
    rw [lookup_filter_keys fun kv hkv hkvk => by
      simpa [hkvk] using List.elem_eq_true_of_mem hkuv]
  have huvf : dictGet (uv.filter fun kv => (pv.map (·.1)).contains kv.1) k =
      (uv.lookup k).getD 0 := by
    unfold dictGet
    rw [lookup_filter_keys fun kv hkv hkvk => by
      simpa [hkvk] using List.elem_eq_true_of_mem hkpv]
  rw [hpvf, huvf, dictGet_map_self hsubN, dictGet_map_self hsubN]
  rw [Bool.decide_or]

/-- C2.  `DbQuotaDriver.limit_check_project_and_user` partitions the
requested resource names: the keys in exactly one of the two value-sets are
merged and checked once against the minimum of the project-scope and
user-scope resolved limits (`projectUserMergedOvers`), raising first when any
such check fails; the keys present in both are then checked independently —
project limit against project value, user limit against user value
(`projectUserScopeOvers`); the call succeeds exactly when both over-lists are
empty.  In particular, `project_values={'instances': 3}`, `user_values={}`
with project limit 2 for instances raises `OverQuota` with
`overs=['instances']`. -/
theorem limit_check_project_and_user_partition
    (resources : List Resource) (projOv userOv : String → Option Int)
    (cd : String → Int) (pv uv : List (String × Int))
    (hnames : (resources.map (·.name)).Nodup)
    (hvalid : ∀ kv ∈ pv ++ uv, checkableIn resources kv.1)
    (hnonneg : ∀ kv ∈ pv ++ uv, (0 : Int) ≤ kv.2)
    (hne : ¬(pv = [] ∧ uv = [])) :
    (projectUserMergedOvers projOv userOv cd pv uv ≠ [] →
      ∃ q hd, (limit_check_project_and_user resources projOv userOv cd pv
          uv).result =
        .error (.overQuota
          (sortStrings (projectUserMergedOvers projOv userOv cd pv uv)) q hd)) ∧
    (projectUserMergedOvers projOv userOv cd pv uv = [] →
      projectUserScopeOvers projOv userOv cd pv uv ≠ [] →
      ∃ q hd, (limit_check_project_and_user resources projOv userOv cd pv
          uv).result =
        .error (.overQuota
          (sortStrings (projectUserScopeOvers projOv userOv cd pv uv)) q hd)) ∧
    (projectUserMergedOvers projOv userOv cd pv uv = [] →
      projectUserScopeOvers projOv userOv cd pv uv = [] →
      (limit_check_project_and_user resources projOv userOv cd pv
        uv).result = .ok ()) ∧
    (limit_check_project_and_user novaQuotaResources
      (fun k => if k = "instances" then some 2 else none) (fun _ => none)
      (fun _ => 10) [("instances", 3)] []).result =
      .error (.overQuota ["instances"] [("instances", 2)] [("instances", 2)]) := by
  have hval1 : _valid_method_call_check_resources pv "check" resources = none :=
    valid_check_resources_none hnames fun kv h =>
      hvalid kv (List.mem_append.mpr (Or.inl h))
  have hval2 : _valid_method_call_check_resources uv "check" resources = none :=
    valid_check_resources_none hnames fun kv h =>
      hvalid kv (List.mem_append.mpr (Or.inr h))
  have hpneg : (pv.filter fun kv => decide (kv.2 < 0)) = [] :=
    List.filter_eq_nil_iff.mpr fun kv h => by
      simpa using hnonneg kv (List.mem_append.mpr (Or.inl h))
  have huneg : (uv.filter fun kv => decide (kv.2 < 0)) = [] :=
    List.filter_eq_nil_iff.mpr fun kv h => by
      simpa using hnonneg kv (List.mem_append.mpr (Or.inr h))
  have hboth : (pv.isEmpty && uv.isEmpty) = false := by
    rcases pv with _ | ⟨a, t⟩
    · rcases uv with _ | ⟨b, s⟩
      · exact absurd ⟨rfl, rfl⟩ hne
      · rfl
    · rfl
  have hfp : pv.filter (fun kv =>
      !((pv.map (·.1)).filter (fun k => !(uv.map (·.1)).contains k) ++
        (uv.map (·.1)).filter (fun k => !(pv.map (·.1)).contains k)).contains
          kv.1) = pv.filter (fun kv => (uv.map (·.1)).contains kv.1) :=
    List.filter_congr fun kv hkv => keys_to_merge_contains_left hkv
  have hfu : uv.filter (fun kv =>
      !((pv.map (·.1)).filter (fun k => !(uv.map (·.1)).contains k) ++
        (uv.map (·.1)).filter (fun k => !(pv.map (·.1)).contains k)).contains
          kv.1) = uv.filter (fun kv => (pv.map (·.1)).contains kv.1) :=
    List.filter_congr fun kv hkv => keys_to_merge_contains_right hkv
  have hsub : ∀ k ∈ pv.map (·.1) ++ uv.map (·.1),
      k ∈ resources.map (·.name) := by
    intro k hk
    rcases List.mem_append.mp hk with h | h
    · obtain ⟨kv, hkv, rfl⟩ := List.mem_map.mp h
      obtain ⟨r, hr, hname, -⟩ := hvalid kv (List.mem_append.mpr (Or.inl hkv))
      exact List.mem_map.mpr ⟨r, hr, hname⟩
    · obtain ⟨kv, hkv, rfl⟩ := List.mem_map.mp h
      obtain ⟨r, hr, hname, -⟩ := hvalid kv (List.mem_append.mpr (Or.inr hkv))
      exact List.mem_map.mpr ⟨r, hr, hname⟩
  have hallsub : ∀ k ∈ (pv.map (·.1) ++ uv.map (·.1)).dedup,
      k ∈ resources.map (·.name) :=
    fun k hk => hsub k (List.mem_dedup.mp hk)
  have hq1 := _get_quotas_ok (resolveProjectLimit projOv cd) hnames
    (List.nodup_dedup _) hallsub
  have hq2 := _get_quotas_ok (resolveUserLimit userOv projOv cd) hnames
    (List.nodup_dedup _) hallsub
  have hmain :
      (projectUserMergedOvers projOv userOv cd pv uv ≠ [] →
        ∃ q hd, (limit_check_project_and_user resources projOv userOv cd pv
            uv).result =
          .error (.overQuota
            (sortStrings (projectUserMergedOvers projOv userOv cd pv uv)) q hd)) ∧
      (projectUserMergedOvers projOv userOv cd pv uv = [] →
        projectUserScopeOvers projOv userOv cd pv uv ≠ [] →
        ∃ q hd, (limit_check_project_and_user resources projOv userOv cd pv
            uv).result =
          .error (.overQuota
            (sortStrings (projectUserScopeOvers projOv userOv cd pv uv)) q hd)) ∧
      (projectUserMergedOvers projOv userOv cd pv uv = [] →
        projectUserScopeOvers projOv userOv cd pv uv = [] →
        (limit_check_project_and_user resources projOv userOv cd pv
          uv).result = .ok ()) := by
    simp only [limit_check_project_and_user, hval1, hval2, hboth, hpneg, huneg,
      List.map_nil, List.isEmpty_nil, Bool.not_true, Bool.false_eq_true,
      if_false, hq1, hq2, hfp, hfu]
    split
    · next e heqM =>
        rw [mergedPhaseCheck_eq, merged_quotas_eq,
          merged_overs_eq resources projOv userOv cd pv uv hsub] at heqM
        split at heqM
        · simp at heqM
        · next hMoF =>
          have he := (Except.error.inj heqM).symm
          subst he
          refine ⟨fun _ => ⟨_, _, rfl⟩, fun hmo _ => ?_, fun hmo _ => ?_⟩
          · exact absurd (by rw [hmo]; rfl) hMoF
          · exact absurd (by rw [hmo]; rfl) hMoF
    · next heqM =>
        rw [mergedPhaseCheck_eq, merged_quotas_eq,
          merged_overs_eq resources projOv userOv cd pv uv hsub] at heqM
        split at heqM
        · next hMoT =>
          have hmoNil : projectUserMergedOvers projOv userOv cd pv uv = [] :=
            List.isEmpty_iff.mp hMoT
          split
          · next e heqS =>
              rw [scopePhaseCheck_eq,
                scope_overs_eq resources projOv userOv cd pv uv hsub] at heqS
              split at heqS
              · simp at heqS
              · next hSoF =>
                have he := (Except.error.inj heqS).symm
                subst he
                refine ⟨fun h => absurd hmoNil h, fun _ _ => ⟨_, _, rfl⟩,
                  fun _ hso => ?_⟩
                exact absurd (by rw [hso]; rfl) hSoF
          · next heqS =>
              rw [scopePhaseCheck_eq,
                scope_overs_eq resources projOv userOv cd pv uv hsub] at heqS
              split at heqS
              · next hSoT =>
                have hsoNil : projectUserScopeOvers projOv userOv cd pv uv = [] :=
                  List.isEmpty_iff.mp hSoT
                exact ⟨fun h => absurd hmoNil h,
                  fun _ hso => absurd hsoNil hso, fun _ _ => rfl⟩
              · simp at heqS
        · simp at heqM
  exact ⟨hmain.1, hmain.2.1, hmain.2.2, by decide⟩

/-- Witness for C2: a request within limits in both value-sets has empty
over-lists and succeeds, through the theorem's third conjunct. -/
theorem limit_check_project_and_user_partition_witness :
    projectUserMergedOvers (fun _ => none) (fun _ => none) (fun _ => 10)
      [("instances", 1)] [("instances", 1)] = [] ∧
    projectUserScopeOvers (fun _ => none) (fun _ => none) (fun _ => 10)
      [("instances", 1)] [("instances", 1)] = [] ∧
    (limit_check_project_and_user novaQuotaResources (fun _ => none)
      (fun _ => none) (fun _ => 10) [("instances", 1)]
      [("instances", 1)]).result = .ok () :=
  ⟨by decide, by decide,
   (limit_check_project_and_user_partition novaQuotaResources (fun _ => none)
      (fun _ => none) (fun _ => 10) [("instances", 1)] [("instances", 1)]
      (by decide) (by decide) (by decide) (by decide)).2.2.1 (by decide)
      (by decide)⟩

/-- Witness for C10: a successful call returns with the `cores` entry popped
from the caller's project dictionary (it was requested in only one
value-set). -/
theorem limit_check_project_and_user_mutates_inputs_witness :
    (limit_check_project_and_user novaQuotaResources (fun _ => none)
        (fun _ => none) (fun _ => 100) [("instances", 1), ("cores", 2)]
        [("instances", 1)]).project_values =
      [("instances", (1 : Int)), ("cores", 2)].filter
        (fun kv => ([("instances", (1 : Int))].map (·.1)).contains kv.1) ∧
    (limit_check_project_and_user novaQuotaResources (fun _ => none)
        (fun _ => none) (fun _ => 100) [("instances", 1), ("cores", 2)]
        [("instances", 1)]).user_values =
      [("instances", (1 : Int))].filter
        (fun kv => ([("instances", (1 : Int)), ("cores", 2)].map
          (·.1)).contains kv.1) :=
  limit_check_project_and_user_mutates_inputs novaQuotaResources
    (fun _ => none) (fun _ => none) (fun _ => 100)
    [("instances", 1), ("cores", 2)] [("instances", 1)]
    (by decide) (by decide) (by decide) (by decide)

end NovaQuota
